import Mathlib

/-!
Shallow embedding of `src/main.rs` of the midi_synth program: the tempo
discovery pass, tempo lookup (`TempoHelper`), tick-to-seconds conversion
(`calc_time`) and the event-sequencing pass of `main`.

Conventions of the embedding:
* Rust `u32`/`u16`/`u8` values are modelled as `Nat`.  The only arithmetic
  the program performs on them is the accumulation `at_tick += delta`;
  in the build's default (debug) profile a `u32` overflow panics, so every
  execution that produces output satisfies the exact-arithmetic model.
* `f64` seconds are modelled as exact rationals (`ℚ`); IEEE-754 rounding is
  abstracted away.  Claims about exact floating-point results are out of
  scope of this model.
* The types `SMF`, `Track`, `TrackEvent`, `Event`, `TimeScale` mirror the
  parts of the `standard_midi_file` crate interface that `main.rs` consumes.
* `SequenceHelper` and `Volume` live in the external `synthesizer` crate;
  they are modelled from the spec (marked `Modelled from the spec:` below).
-/

/-- Event variants of the `standard_midi_file` crate that `main.rs` matches
on; every other variant falls into the wildcard arm, modelled by `Other`. -/
inductive Event where
  | Tempo (value : Nat)
  | NoteOn (key velocity : Nat)
  | NoteOff (key velocity : Nat)
  | Other
  deriving DecidableEq, Repr

/-- One track event: a delta time in ticks and the event itself. -/
structure TrackEvent where
  delta_time : Nat
  event : Event
  deriving DecidableEq, Repr

/-- One track: an ordered list of track events. -/
structure Track where
  track_events : List TrackEvent
  deriving DecidableEq, Repr

/-- The two time-division models of the SMF header. -/
inductive TimeScale where
  | TicksPerQuarterNote (t : Nat)
  | SMPTECompatible (a b : Nat)
  deriving DecidableEq, Repr

/-- The parts of a parsed standard MIDI file that `main.rs` reads. -/
structure SMF where
  time_division : TimeScale
  tracks : List Track
  deriving DecidableEq, Repr

/-- Rust's derived `Ord` on `(u32, u32)` pairs: lexicographic order.
`Vec::sort` sorts by this order. -/
def lexLe (a b : Nat × Nat) : Bool :=
  decide (a.1 < b.1 ∨ (a.1 = b.1 ∧ a.2 ≤ b.2))

/-- `TempoHelper` from `main.rs`: a vector of `(tick, tempo)` pairs. -/
structure TempoHelper where
  data : List (Nat × Nat)
  deriving DecidableEq, Repr

/-- `TempoHelper::new`. -/
def TempoHelper.new : TempoHelper := ⟨[]⟩

/-- `TempoHelper::new_tempo`: push `(tick, tempo)` onto the data vector. -/
def TempoHelper.new_tempo (h : TempoHelper) (tick tempo : Nat) : TempoHelper :=
  ⟨h.data ++ [(tick, tempo)]⟩

/-- The scan loop of `TempoHelper::get_tempo`: return the tempo of the first
entry whose stored tick is `≤ tick`, default 500000 when none matches. -/
def tempoScan : List (Nat × Nat) → Nat → Nat
  | [], _ => 500000
  | (a, tempo) :: rest, tick => if a ≤ tick then tempo else tempoScan rest tick

/-- `TempoHelper::get_tempo`: sort the data ascending (lexicographically, as
Rust's `Vec::sort` on pairs), reverse to descending, then scan for the first
entry with `stored tick ≤ tick`.  The Rust method stores the sorted vector
back into `self`; since the result only depends on the multiset of entries
(proved in `get_tempo_perm` below) the pure model returns the same value on
the pre-call state. -/
def TempoHelper.get_tempo (h : TempoHelper) (tick : Nat) : Nat :=
  tempoScan ((h.data.mergeSort lexLe).reverse) tick

theorem lexLe_trans (a b c : Nat × Nat) (hab : lexLe a b = true)
    (hbc : lexLe b c = true) : lexLe a c = true := by
  simp only [lexLe, decide_eq_true_eq] at *
  omega

theorem lexLe_total (a b : Nat × Nat) : (lexLe a b || lexLe b a) = true := by
  simp only [lexLe, Bool.or_eq_true, decide_eq_true_eq]
  omega

theorem lexLe_refl (a : Nat × Nat) : lexLe a a = true := by
  simp [lexLe]

theorem lexLe_antisymm (a b : Nat × Nat) (hab : lexLe a b = true)
    (hba : lexLe b a = true) : a = b := by
  simp only [lexLe, decide_eq_true_eq] at hab hba
  have h1 : a.1 = b.1 := by omega
  have h2 : a.2 = b.2 := by omega
  exact Prod.ext h1 h2

/-- The sorted-then-reversed data is pairwise descending. -/
theorem sortedRev_pairwise (l : List (Nat × Nat)) :
    List.Pairwise (fun a b => lexLe b a = true) ((l.mergeSort lexLe).reverse) := by
  rw [List.pairwise_reverse]
  exact List.sorted_mergeSort lexLe_trans lexLe_total l

/-- Membership in the sorted-then-reversed data agrees with the original. -/
theorem mem_sortedRev (l : List (Nat × Nat)) (p : Nat × Nat) :
    p ∈ (l.mergeSort lexLe).reverse ↔ p ∈ l := by
  rw [List.mem_reverse]
  exact (List.mergeSort_perm l lexLe).mem_iff

/-- If no entry is applicable (every stored tick exceeds the query), the scan
returns the 500000 default. -/
theorem tempoScan_default (l : List (Nat × Nat)) (t : Nat)
    (h : ∀ p ∈ l, t < p.1) : tempoScan l t = 500000 := by
  induction l with
  | nil => rfl
  | cons a rest ih =>
      have ha := h a (List.mem_cons_self a rest)
      simp only [tempoScan]
      rw [if_neg (by omega)]
      exact ih fun p hp => h p (List.mem_cons_of_mem a hp)

/-- On a descending list with at least one applicable entry, the scan returns
the tempo of a lexicographically greatest applicable entry. -/
theorem tempoScan_max (l : List (Nat × Nat)) (t : Nat)
    (hsort : List.Pairwise (fun a b => lexLe b a = true) l)
    (q : Nat × Nat) (hq : q ∈ l) (hqt : q.1 ≤ t) :
    ∃ r, r ∈ l ∧ r.1 ≤ t ∧ (∀ p ∈ l, p.1 ≤ t → lexLe p r = true) ∧
      tempoScan l t = r.2 := by
  induction l with
  | nil => cases hq
  | cons a rest ih =>
      rw [List.pairwise_cons] at hsort
      obtain ⟨ha, hrest⟩ := hsort
      by_cases hat : a.1 ≤ t
      · refine ⟨a, List.mem_cons_self a rest, hat, ?_, ?_⟩
        · intro p hp _
          rcases List.mem_cons.mp hp with h | h
          · rw [h]; exact lexLe_refl a
          · exact ha p h
        · simp only [tempoScan]
          rw [if_pos hat]
      · have hq' : q ∈ rest := by
          rcases List.mem_cons.mp hq with h | h
          · exfalso; rw [h] at hqt; exact hat hqt
          · exact h
        obtain ⟨r, hrmem, hrt, hrmax, hrscan⟩ := ih hrest hq'
        refine ⟨r, List.mem_cons_of_mem a hrmem, hrt, ?_, ?_⟩
        · intro p hp hpt
          rcases List.mem_cons.mp hp with h | h
          · exfalso; rw [h] at hpt; exact hat hpt
          · exact hrmax p h hpt
        · simp only [tempoScan]
          rw [if_neg hat]
          exact hrscan

/-- Characterization of `get_tempo` on the original (unsorted) data: default
when nothing is applicable, otherwise the tempo of a lexicographically
greatest applicable entry. -/
theorem get_tempo_spec (h : TempoHelper) (t : Nat) :
    ((∀ p ∈ h.data, t < p.1) → h.get_tempo t = 500000) ∧
    (∀ q ∈ h.data, q.1 ≤ t →
      ∃ r, r ∈ h.data ∧ r.1 ≤ t ∧ (∀ p ∈ h.data, p.1 ≤ t → lexLe p r = true) ∧
        h.get_tempo t = r.2) := by
  constructor
  · intro hnone
    exact tempoScan_default _ t fun p hp => hnone p ((mem_sortedRev h.data p).mp hp)
  · intro q hq hqt
    obtain ⟨r, hrmem, hrt, hrmax, hrscan⟩ :=
      tempoScan_max ((h.data.mergeSort lexLe).reverse) t
        (sortedRev_pairwise h.data) q ((mem_sortedRev h.data q).mpr hq) hqt
    exact ⟨r, (mem_sortedRev h.data r).mp hrmem, hrt,
      fun p hp hpt => hrmax p ((mem_sortedRev h.data p).mpr hp) hpt, hrscan⟩

/-- Sorting is determined by the multiset of entries: permuted data sorts to
the same list. -/
theorem mergeSort_eq_of_perm (l l2 : List (Nat × Nat)) (hperm : l.Perm l2) :
    l.mergeSort lexLe = l2.mergeSort lexLe := by
  haveI : IsAntisymm (Nat × Nat) (fun a b => lexLe a b = true) :=
    ⟨fun a b => lexLe_antisymm a b⟩
  refine List.eq_of_perm_of_sorted (r := fun a b => lexLe a b = true) ?_ ?_ ?_
  · exact ((List.mergeSort_perm l lexLe).trans hperm).trans
      (List.mergeSort_perm l2 lexLe).symm
  · exact List.sorted_mergeSort lexLe_trans lexLe_total l
  · exact List.sorted_mergeSort lexLe_trans lexLe_total l2

/-- `get_tempo` only depends on the multiset of recorded entries, not on the
order in which they were recorded. -/
theorem get_tempo_perm (h h2 : TempoHelper) (t : Nat)
    (hperm : h.data.Perm h2.data) : h.get_tempo t = h2.get_tempo t := by
  unfold TempoHelper.get_tempo
  rw [mergeSort_eq_of_perm h.data h2.data hperm]

/-- `calc_time` from `main.rs`:
`(tempo / ticks_per_quarter_note) * ticks * 10^(-6)` seconds, with the `f64`
arithmetic modelled as exact rationals. -/
def calc_time (ticks tempo : Nat) (ticks_per_quarter_note : Nat) : ℚ :=
  ((tempo : ℚ) / (ticks_per_quarter_note : ℚ)) * (ticks : ℚ) * (1 / 1000000)

/-- One step of the tempo-discovery loop of `main`: advance the per-track
absolute tick by the event's delta time, and record `(at_tick, t)` when the
event is a tempo change. -/
def discoveryStep (s : Nat × TempoHelper) (te : TrackEvent) : Nat × TempoHelper :=
  let at_tick := s.1 + te.delta_time
  match te.event with
  | Event.Tempo t => (at_tick, s.2.new_tempo at_tick t)
  | _ => (at_tick, s.2)

/-- The discovery pass over one track: the tick accumulator starts at 0,
the shared helper is threaded through. -/
def discoverTrack (h : TempoHelper) (tr : Track) : TempoHelper :=
  (tr.track_events.foldl discoveryStep (0, h)).2

/-- The discovery pass of `main` over all tracks, starting from
`TempoHelper::new`. -/
def discoverAll (tracks : List Track) : TempoHelper :=
  tracks.foldl discoverTrack TempoHelper.new

/-- A command of the output sequence of the `synthesizer` crate, as built by
`SequenceHelper`.  Modelled from the spec: `StartNote` carries the time in
seconds, the voice `(channel, note)` and the volume(s); `StopNote` carries
the time and the voice. -/
inductive Command where
  | StartNote (time : ℚ) (channel note : Nat) (volumes : List ℚ)
  | StopNote (time : ℚ) (channel note : Nat)
  deriving DecidableEq, Repr

/-- The channel a command targets. -/
def Command.channel : Command → Nat
  | Command.StartNote _ c _ _ => c
  | Command.StopNote _ c _ => c

/-- Modelled from the spec: `Volume::new` of the `synthesizer` crate accepts
a volume in `[0,1]` and rejects anything outside (MalformedVolume is
"clamped or rejected, never passed through unclamped"; the reference rejects,
and `main.rs` unwraps the result). -/
def Volume.new (v : ℚ) : Option ℚ :=
  if 0 ≤ v ∧ v ≤ 1 then some v else none

/-- Modelled from the spec: the state of `SequenceHelper` of the
`synthesizer` crate: the shared output sequence and the current time offset
in seconds for the track being processed. -/
structure SequenceHelper where
  sequence : List Command
  time : ℚ
  deriving DecidableEq, Repr

/-- Modelled from the spec: `SequenceHelper::new` starts with an empty
sequence at time zero. -/
def SequenceHelper.new : SequenceHelper := ⟨[], 0⟩

/-- Modelled from the spec: `reset` zeroes the seconds offset for a new
track; the shared output sequence persists (all tracks append to it). -/
def SequenceHelper.reset (s : SequenceHelper) : SequenceHelper :=
  { s with time := 0 }

/-- Modelled from the spec: `time_forward` adds the elapsed seconds to the
current time offset. -/
def SequenceHelper.time_forward (s : SequenceHelper) (dt : ℚ) : SequenceHelper :=
  { s with time := s.time + dt }

/-- Modelled from the spec: `start_note` appends a `StartNote` command at the
current time offset (channel validation is deferred to the synthesis stage,
so the call always succeeds at build time). -/
def SequenceHelper.start_note (s : SequenceHelper) (note channel : Nat)
    (volumes : List ℚ) : SequenceHelper :=
  { s with sequence := s.sequence ++ [Command.StartNote s.time channel note volumes] }

/-- Modelled from the spec: `stop_note` appends a `StopNote` command at the
current time offset; stop-without-start is legal. -/
def SequenceHelper.stop_note (s : SequenceHelper) (note channel : Nat) : SequenceHelper :=
  { s with sequence := s.sequence ++ [Command.StopNote s.time channel note] }

/-- One step of the sequencing loop of `main`: advance the per-track tick by
the delta time, advance the time cursor using the tempo resolved at the
post-advance tick, then dispatch the event.  `none` models a panic of the
unwrap on `Volume::new`. -/
def seqStep (tpqn : Nat) (th : TempoHelper) (s : Nat × SequenceHelper)
    (te : TrackEvent) : Option (Nat × SequenceHelper) :=
  let at_tick := s.1 + te.delta_time
  let sb := s.2.time_forward (calc_time te.delta_time (th.get_tempo at_tick) tpqn)
  match te.event with
  | Event.NoteOn key velocity =>
      if 0 < velocity then
        (Volume.new ((velocity : ℚ) / 128)).map
          (fun vol => (at_tick, sb.start_note key 0 [vol]))
      else some (at_tick, sb.stop_note key 0)
  | Event.NoteOff key _ => some (at_tick, sb.stop_note key 0)
  | _ => some (at_tick, sb)

/-- The sequencing pass of `main` over one track: reset the helper, restart
the tick accumulator at 0, then fold the events. -/
def processTrack (tpqn : Nat) (th : TempoHelper) (sb : SequenceHelper)
    (tr : Track) : Option SequenceHelper :=
  (tr.track_events.foldlM (seqStep tpqn th) (0, sb.reset)).map (fun s => s.2)

/-- The sequencing pass of `main` over all tracks, in file order. -/
def sequencing (tpqn : Nat) (th : TempoHelper) (tracks : List Track) :
    Option SequenceHelper :=
  tracks.foldlM (processTrack tpqn th) SequenceHelper.new

/-- The commands one track contributes when processed from a fresh helper. -/
def trackCommands (tpqn : Nat) (th : TempoHelper) (tr : Track) :
    Option (List Command) :=
  (processTrack tpqn th SequenceHelper.new tr).map (fun s => s.sequence)

/-- The waveform generator kinds of the `synthesizer` crate. -/
inductive KeyGen where
  | square
  | triangle
  | sawtooth
  deriving DecidableEq, Repr

/-- The generator selection of `main`: match on the FUNCTION argument
(absent modelled as `none`, defaulted to `""` as by `unwrap_or("")`), with
square for anything unrecognized. -/
def chooseKeyGen (function : Option String) : KeyGen :=
  match function.getD "" with
  | "triangle" => KeyGen.triangle
  | "sawtooth" => KeyGen.sawtooth
  | _ => KeyGen.square

/-- The instrument map of `main`: a single instrument keyed by channel 0,
using the chosen generator. -/
def buildInstruments (function : Option String) : List (Nat × KeyGen) :=
  [(0, chooseKeyGen function)]

/-- The pipeline of `main` after the file is parsed: reject an SMPTE time
division (`unimplemented!` panics before any processing), otherwise run the
discovery pass and then the sequencing pass, producing the command
sequence handed to the synthesizer. -/
def runPipeline (smf : SMF) : Option (List Command) :=
  match smf.time_division with
  | TimeScale.TicksPerQuarterNote tpqn =>
      let th := discoverAll smf.tracks
      (sequencing tpqn th smf.tracks).map (fun s => s.sequence)
  | TimeScale.SMPTECompatible _ _ => none

/-- Auxiliary: `lexLe p r` implies the ticks compare. -/
theorem lexLe_fst_le (p r : Nat × Nat) (h : lexLe p r = true) : p.1 ≤ r.1 := by
  simp only [lexLe, decide_eq_true_eq] at h
  omega

/-- Claim C1: for every tick value `t` and every sequence of recorded tempo
events, `get_tempo t` returns the tempo of a recorded entry whose tick is the
greatest recorded tick `≤ t` (the latest applicable tempo event), and returns
the default 500000 microseconds per quarter note when no recorded entry has
tick `≤ t`, including when the map is empty. -/
theorem claim_C1 (h : TempoHelper) (t : Nat) :
    ((∀ p ∈ h.data, t < p.1) → h.get_tempo t = 500000) ∧
    (∀ q ∈ h.data, q.1 ≤ t →
      ∃ r, r ∈ h.data ∧ r.1 ≤ t ∧ (∀ p ∈ h.data, p.1 ≤ t → p.1 ≤ r.1) ∧
        h.get_tempo t = r.2) := by
  obtain ⟨hdef, hmax⟩ := get_tempo_spec h t
  refine ⟨hdef, fun q hq hqt => ?_⟩
  obtain ⟨r, hrmem, hrt, hrmax, hrval⟩ := hmax q hq hqt
  exact ⟨r, hrmem, hrt, fun p hp hpt => lexLe_fst_le p r (hrmax p hp hpt), hrval⟩

/-- Witness for C1 at the spec's example map `[(0,500000),(480,600000)]` and
query 479. -/
theorem claim_C1_witness :
    ∃ r, r ∈ (TempoHelper.mk [(0, 500000), (480, 600000)]).data ∧ r.1 ≤ 479 ∧
      (∀ p ∈ (TempoHelper.mk [(0, 500000), (480, 600000)]).data, p.1 ≤ 479 → p.1 ≤ r.1) ∧
      (TempoHelper.mk [(0, 500000), (480, 600000)]).get_tempo 479 = r.2 :=
  (claim_C1 (TempoHelper.mk [(0, 500000), (480, 600000)]) 479).2
    (0, 500000) (by decide) (by decide)

/-- Claim C10: `get_tempo` only depends on the multiset of recorded entries
(insertion order never affects the result), and when an applicable entry `q`
has the greatest applicable tick and, among entries sharing that tick, the
numerically largest tempo, the result is exactly `q`'s tempo. -/
theorem claim_C10 (h h2 : TempoHelper) (t : Nat) :
    (h.data.Perm h2.data → h.get_tempo t = h2.get_tempo t) ∧
    (∀ q ∈ h.data, q.1 ≤ t →
      (∀ p ∈ h.data, p.1 ≤ t → p.1 ≤ q.1) →
      (∀ p ∈ h.data, p.1 = q.1 → p.2 ≤ q.2) →
      h.get_tempo t = q.2) := by
  constructor
  · exact get_tempo_perm h h2 t
  · intro q hq hqt htickmax htempomax
    obtain ⟨r, hrmem, hrt, hrmax, hrval⟩ := (get_tempo_spec h t).2 q hq hqt
    have hqr : lexLe q r = true := hrmax q hq hqt
    have hrq : lexLe r q = true := by
      have h1 : r.1 ≤ q.1 := htickmax r hrmem hrt
      simp only [lexLe, decide_eq_true_eq]
      rcases Nat.lt_or_ge r.1 q.1 with hlt | hge
      · exact Or.inl hlt
      · have heq : r.1 = q.1 := Nat.le_antisymm h1 hge
        exact Or.inr ⟨heq, htempomax r hrmem heq⟩
    rw [hrval, lexLe_antisymm r q hrq hqr]

/-- Witness for C10: two entries at the same tick 0 with tempos 100 and 50,
recorded in either order, resolve at query 7 to the same value, namely the
larger tempo 100. -/
theorem claim_C10_witness :
    (TempoHelper.mk [(0, 100), (0, 50)]).get_tempo 7 =
      (TempoHelper.mk [(0, 50), (0, 100)]).get_tempo 7 ∧
    (TempoHelper.mk [(0, 100), (0, 50)]).get_tempo 7 = 100 :=
  ⟨(claim_C10 (TempoHelper.mk [(0, 100), (0, 50)])
      (TempoHelper.mk [(0, 50), (0, 100)]) 7).1 (List.Perm.swap (0, 50) (0, 100) []),
   (claim_C10 (TempoHelper.mk [(0, 100), (0, 50)])
      (TempoHelper.mk [(0, 50), (0, 100)]) 7).2 (0, 100) (by decide) (by decide)
      (by decide) (by decide)⟩

/-- Claim C8: when the file header declares an SMPTE (timecode-based) time
division, the pipeline aborts before any tempo discovery or sequencing and
produces no output. -/
theorem claim_C8 (smf : SMF) (a b : Nat)
    (h : smf.time_division = TimeScale.SMPTECompatible a b) :
    runPipeline smf = none := by
  unfold runPipeline
  rw [h]

/-- Witness for C8 at a concrete SMPTE-headed file. -/
theorem claim_C8_witness :
    runPipeline ⟨TimeScale.SMPTECompatible 25 40,
      [Track.mk [TrackEvent.mk 0 (Event.NoteOn 60 100)]]⟩ = none :=
  claim_C8 ⟨TimeScale.SMPTECompatible 25 40,
    [Track.mk [TrackEvent.mk 0 (Event.NoteOn 60 100)]]⟩ 25 40 rfl

/-- Claim C2: whenever a track event with delta time `d` is processed, the
tick cursor becomes `at_tick + d` and the time cursor advances by
`calc_time d m tpqn` where `m` is the tempo resolved at the post-advance tick
`at_tick + d`, not at the pre-advance position. -/
theorem claim_C2 (tpqn : Nat) (th : TempoHelper) (at_tick : Nat)
    (sb : SequenceHelper) (te : TrackEvent) (tick2 : Nat) (sb2 : SequenceHelper)
    (h : seqStep tpqn th (at_tick, sb) te = some (tick2, sb2)) :
    tick2 = at_tick + te.delta_time ∧
    sb2.time = sb.time +
      calc_time te.delta_time (th.get_tempo (at_tick + te.delta_time)) tpqn := by
  rcases te with ⟨d, ev⟩
  cases ev with
  | Tempo t =>
      simp only [seqStep] at h
      obtain ⟨h1, h2⟩ := Prod.mk.injEq .. ▸ (Option.some.injEq .. ▸ h)
      exact ⟨h1.symm, by rw [← h2]; rfl⟩
  | NoteOn key velocity =>
      simp only [seqStep] at h
      by_cases hv : 0 < velocity
      · rw [if_pos hv] at h
        cases hvol : Volume.new ((velocity : ℚ) / 128) with
        | none => rw [hvol] at h; cases h
        | some vol =>
            rw [hvol] at h
            rw [Option.map_some'] at h
            simp only [Option.some.injEq, Prod.mk.injEq] at h
            obtain ⟨h1, h2⟩ := h
            exact ⟨h1.symm, by rw [← h2]; rfl⟩
      · rw [if_neg hv] at h
        simp only [Option.some.injEq, Prod.mk.injEq] at h
        obtain ⟨h1, h2⟩ := h
        exact ⟨h1.symm, by rw [← h2]; rfl⟩
  | NoteOff key velocity =>
      simp only [seqStep] at h
      simp only [Option.some.injEq, Prod.mk.injEq] at h
      obtain ⟨h1, h2⟩ := h
      exact ⟨h1.symm, by rw [← h2]; rfl⟩
  | Other =>
      simp only [seqStep] at h
      simp only [Option.some.injEq, Prod.mk.injEq] at h
      obtain ⟨h1, h2⟩ := h
      exact ⟨h1.symm, by rw [← h2]; rfl⟩

/-- Witness for C2: a NoteOff event with delta 240 from the fresh state and
an empty tempo map. -/
theorem claim_C2_witness :
    (0 + 240 : Nat) = 0 + 240 ∧
    ((SequenceHelper.new.time_forward
        (calc_time 240 (TempoHelper.get_tempo ⟨[]⟩ (0 + 240)) 480)).stop_note 60 0).time =
      SequenceHelper.new.time +
        calc_time 240 (TempoHelper.get_tempo ⟨[]⟩ (0 + 240)) 480 :=
  claim_C2 480 ⟨[]⟩ 0 SequenceHelper.new ⟨240, Event.NoteOff 60 0⟩ (0 + 240)
    ((SequenceHelper.new.time_forward
        (calc_time 240 (TempoHelper.get_tempo ⟨[]⟩ (0 + 240)) 480)).stop_note 60 0) rfl

/-- Claim C4: a NoteOn with velocity 0 is processed exactly as an explicit
NoteOff at the same tick would be: it yields the same successor state, which
appends a single StopNote (and no StartNote) at the advanced time cursor. -/
theorem claim_C4 (tpqn : Nat) (th : TempoHelper) (at_tick : Nat)
    (sb : SequenceHelper) (key d v : Nat) :
    seqStep tpqn th (at_tick, sb) ⟨d, Event.NoteOn key 0⟩ =
      seqStep tpqn th (at_tick, sb) ⟨d, Event.NoteOff key v⟩ ∧
    seqStep tpqn th (at_tick, sb) ⟨d, Event.NoteOn key 0⟩ =
      some (at_tick + d,
        ⟨sb.sequence ++
            [Command.StopNote
              (sb.time + calc_time d (th.get_tempo (at_tick + d)) tpqn) 0 key],
          sb.time + calc_time d (th.get_tempo (at_tick + d)) tpqn⟩) :=
  ⟨rfl, rfl⟩

/-- Claim C5: a NoteOn with velocity `v` in `1..=127` succeeds and appends a
single StartNote at the advanced time cursor with volume `v / 128`, and that
volume always lies in `[0, 1)`, so `1.0` is unreachable and no out-of-range
volume is ever passed downstream. -/
theorem claim_C5 (tpqn : Nat) (th : TempoHelper) (at_tick : Nat)
    (sb : SequenceHelper) (key d v : Nat) (h1 : 1 ≤ v) (h2 : v ≤ 127) :
    seqStep tpqn th (at_tick, sb) ⟨d, Event.NoteOn key v⟩ =
      some (at_tick + d,
        ⟨sb.sequence ++
            [Command.StartNote
              (sb.time + calc_time d (th.get_tempo (at_tick + d)) tpqn) 0 key
              [(v : ℚ) / 128]],
          sb.time + calc_time d (th.get_tempo (at_tick + d)) tpqn⟩) ∧
    0 ≤ (v : ℚ) / 128 ∧ (v : ℚ) / 128 < 1 := by
  have hnonneg : 0 ≤ (v : ℚ) / 128 := by positivity
  have hlt : (v : ℚ) / 128 < 1 := by
    rw [div_lt_one (by norm_num : (0 : ℚ) < 128)]
    exact_mod_cast Nat.lt_of_le_of_lt h2 (by norm_num)
  refine ⟨?_, hnonneg, hlt⟩
  simp only [seqStep]
  rw [if_pos (by omega : 0 < v)]
  unfold Volume.new
  rw [if_pos ⟨hnonneg, le_of_lt hlt⟩]
  rfl

/-- Witness for C5: velocity 100 on key 60 with delta 0 from the fresh state. -/
theorem claim_C5_witness :
    seqStep 480 ⟨[]⟩ (0, SequenceHelper.new) ⟨0, Event.NoteOn 60 100⟩ =
      some (0 + 0,
        ⟨SequenceHelper.new.sequence ++
            [Command.StartNote
              (SequenceHelper.new.time +
                calc_time 0 (TempoHelper.get_tempo ⟨[]⟩ (0 + 0)) 480) 0 60
              [(100 : ℚ) / 128]],
          SequenceHelper.new.time +
            calc_time 0 (TempoHelper.get_tempo ⟨[]⟩ (0 + 0)) 480⟩) ∧
    0 ≤ (100 : ℚ) / 128 ∧ (100 : ℚ) / 128 < 1 :=
  claim_C5 480 ⟨[]⟩ 0 SequenceHelper.new 60 0 100 (by norm_num) (by norm_num)

/-- The per-track absolute tick of each event: the cumulative sum of the
track's delta times up to and including the event, paired with the event. -/
def cumTicks (acc : Nat) : List TrackEvent → List (Nat × Event)
  | [] => []
  | te :: rest => (acc + te.delta_time, te.event) :: cumTicks (acc + te.delta_time) rest

/-- Select tempo-change events: `(tick, Tempo t)` yields `(tick, t)`,
anything else yields nothing. -/
def tempoEntry (p : Nat × Event) : Option (Nat × Nat) :=
  match p.2 with
  | Event.Tempo t => some (p.1, t)
  | _ => none

/-- The tempo entries one track contributes: its tempo-change events at their
cumulative tick positions, the accumulator starting at zero. -/
def trackTempoEvents (tr : Track) : List (Nat × Nat) :=
  (cumTicks 0 tr.track_events).filterMap tempoEntry

/-- The discovery fold over one track's events appends exactly the tempo
entries of those events, at their cumulative ticks. -/
theorem discoverFold_data (events : List TrackEvent) :
    ∀ (acc : Nat) (h : TempoHelper),
    ((events.foldl discoveryStep (acc, h)).2).data =
      h.data ++ (cumTicks acc events).filterMap tempoEntry := by
  induction events with
  | nil => intro acc h; simp [cumTicks]
  | cons te es ih =>
      intro acc h
      rcases te with ⟨d, ev⟩
      cases ev <;>
        simp [discoveryStep, cumTicks, List.filterMap_cons, tempoEntry, ih,
          TempoHelper.new_tempo, List.append_assoc]

/-- The discovery pass over a list of tracks appends each track's tempo
entries in file order. -/
theorem discoverAll_from (tracks : List Track) :
    ∀ h : TempoHelper,
    ((tracks.foldl discoverTrack h).data) =
      h.data ++ (tracks.map trackTempoEvents).flatten := by
  induction tracks with
  | nil => intro h; simp
  | cons tr trs ih =>
      intro h
      rw [List.foldl_cons, ih]
      rw [show discoverTrack h tr = (tr.track_events.foldl discoveryStep (0, h)).2 from rfl]
      rw [discoverFold_data tr.track_events 0 h]
      simp [trackTempoEvents, List.append_assoc]

/-- Claim C7: the discovery pass records, in the single shared tempo map,
exactly one entry per tempo-change event of every track and none for any
other event kind, each at the cumulative sum of its track's delta times up
to and including the event, the per-track accumulator restarting at zero. -/
theorem claim_C7 (tracks : List Track) :
    (discoverAll tracks).data = (tracks.map trackTempoEvents).flatten := by
  rw [show discoverAll tracks = tracks.foldl discoverTrack TempoHelper.new from rfl]
  rw [discoverAll_from tracks TempoHelper.new]
  rfl

/-- One sequencing step only appends to the command sequence: its result on a
state carrying a prior sequence is the result on the empty sequence with the
prior sequence prepended. -/
theorem seqStep_shift (tpqn : Nat) (th : TempoHelper) (tick : Nat)
    (seq : List Command) (time : ℚ) (te : TrackEvent) :
    seqStep tpqn th (tick, ⟨seq, time⟩) te =
      (seqStep tpqn th (tick, ⟨[], time⟩) te).map
        (fun s2 => (s2.1, ⟨seq ++ s2.2.sequence, s2.2.time⟩)) := by
  rcases te with ⟨d, ev⟩
  cases ev with
  | Tempo t =>
      simp [seqStep, SequenceHelper.time_forward]
  | NoteOn key velocity =>
      simp only [seqStep]
      by_cases hv : 0 < velocity
      · rw [if_pos hv, if_pos hv]
        cases hvol : Volume.new ((velocity : ℚ) / 128) <;>
          simp [SequenceHelper.time_forward, SequenceHelper.start_note]
      · rw [if_neg hv, if_neg hv]
        simp [SequenceHelper.time_forward, SequenceHelper.stop_note]
  | NoteOff key velocity =>
      simp [seqStep, SequenceHelper.time_forward, SequenceHelper.stop_note]
  | Other =>
      simp [seqStep, SequenceHelper.time_forward]

/-- The sequencing fold over a track's events only appends to the command
sequence, and what it appends does not depend on the prior sequence. -/
theorem seqFold_shift (tpqn : Nat) (th : TempoHelper) (events : List TrackEvent) :
    ∀ (tick : Nat) (seq : List Command) (time : ℚ),
    events.foldlM (seqStep tpqn th) (tick, ⟨seq, time⟩) =
      (events.foldlM (seqStep tpqn th) (tick, ⟨[], time⟩)).map
        (fun s2 => (s2.1, ⟨seq ++ s2.2.sequence, s2.2.time⟩)) := by
  induction events with
  | nil => intro tick seq time; simp
  | cons te es ih =>
      intro tick seq time
      rw [List.foldlM_cons, List.foldlM_cons, seqStep_shift]
      cases hstep : seqStep tpqn th (tick, ⟨[], time⟩) te with
      | none => simp
      | some s2 =>
          rcases s2 with ⟨t2, ⟨s2seq, time2⟩⟩
          have hbind : ∀ (x : Nat × SequenceHelper)
              (f : Nat × SequenceHelper → Option (Nat × SequenceHelper)),
              (some x >>= f) = f x := fun x f => rfl
          simp only [Option.map_some']
          rw [hbind, hbind]
          rw [ih t2 (seq ++ s2seq) time2, ih t2 s2seq time2]
          cases es.foldlM (seqStep tpqn th) (t2, ⟨[], time2⟩) <;>
            simp [List.append_assoc]

/-- Processing one track from any helper appends exactly the commands the
track produces from a fresh helper; the appended commands and the final time
do not depend on the prior state. -/
theorem processTrack_shift (tpqn : Nat) (th : TempoHelper) (sb : SequenceHelper)
    (tr : Track) :
    processTrack tpqn th sb tr =
      (processTrack tpqn th SequenceHelper.new tr).map
        (fun s2 => ⟨sb.sequence ++ s2.sequence, s2.time⟩) := by
  unfold processTrack
  rw [show sb.reset = (⟨sb.sequence, 0⟩ : SequenceHelper) from rfl]
  rw [show SequenceHelper.new.reset = (⟨[], 0⟩ : SequenceHelper) from rfl]
  rw [seqFold_shift tpqn th tr.track_events 0 sb.sequence 0]
  cases tr.track_events.foldlM (seqStep tpqn th) (0, ⟨[], 0⟩) <;> simp

/-- The sequencing pass starting from any helper produces that helper's
sequence followed by each track's own commands, in file order. -/
theorem sequencing_from (tpqn : Nat) (th : TempoHelper) (tracks : List Track) :
    ∀ sb : SequenceHelper,
    (tracks.foldlM (processTrack tpqn th) sb).map (fun s => s.sequence) =
      (tracks.mapM (trackCommands tpqn th)).map (fun css => sb.sequence ++ css.flatten) := by
  induction tracks with
  | nil =>
      intro sb
      rw [show (([] : List Track).mapM (trackCommands tpqn th)) =
        some ([] : List (List Command)) from rfl]
      simp
  | cons tr trs ih =>
      intro sb
      rw [List.foldlM_cons, List.mapM_cons, processTrack_shift]
      cases htr : processTrack tpqn th SequenceHelper.new tr with
      | none => simp [trackCommands, htr]
      | some s2 =>
          have hbind1 : ∀ (x : SequenceHelper) (f : SequenceHelper → Option SequenceHelper),
              (some x >>= f) = f x := fun x f => rfl
          have hbind2 : ∀ (x : List Command)
              (f : List Command → Option (List (List Command))),
              (some x >>= f) = f x := fun x f => rfl
          simp only [trackCommands, htr, Option.map_some']
          rw [hbind1, hbind2, ih ⟨sb.sequence ++ s2.sequence, s2.time⟩]
          cases hm : trs.mapM (trackCommands tpqn th) with
          | none => simp
          | some css =>
              have hbind3 : (some css >>=
                  fun cs => (pure (s2.sequence :: cs) : Option (List (List Command)))) =
                  some (s2.sequence :: css) := rfl
              rw [hbind3]
              simp [List.append_assoc]

/-- Claim C6: the sequencing pass processes tracks sequentially in file
order, each track starting from a reset builder (tick cursor 0, seconds
offset 0, which is what `trackCommands` computes), and the output sequence
is the concatenation of the per-track command lists in file order,
regardless of the commands' absolute timestamps. -/
theorem claim_C6 (tpqn : Nat) (th : TempoHelper) (tracks : List Track) :
    (sequencing tpqn th tracks).map (fun s => s.sequence) =
      (tracks.mapM (trackCommands tpqn th)).map List.flatten := by
  rw [show sequencing tpqn th tracks =
      tracks.foldlM (processTrack tpqn th) SequenceHelper.new from rfl]
  rw [sequencing_from tpqn th tracks SequenceHelper.new]
  cases tracks.mapM (trackCommands tpqn th) <;> simp [SequenceHelper.new]

/-- Every successful sequencing step appends a list of commands, each of
which targets channel 0. -/
theorem seqStep_append (tpqn : Nat) (th : TempoHelper) (s : Nat × SequenceHelper)
    (te : TrackEvent) (s2 : Nat × SequenceHelper)
    (h : seqStep tpqn th s te = some s2) :
    ∃ cs : List Command, s2.2.sequence = s.2.sequence ++ cs ∧
      ∀ c ∈ cs, c.channel = 0 := by
  rcases te with ⟨d, ev⟩
  cases ev with
  | Tempo t =>
      simp only [seqStep, Option.some.injEq] at h
      refine ⟨[], ?_, by simp⟩
      rw [← h]
      simp [SequenceHelper.time_forward]
  | NoteOn key velocity =>
      simp only [seqStep] at h
      by_cases hv : 0 < velocity
      · rw [if_pos hv] at h
        cases hvol : Volume.new ((velocity : ℚ) / 128) with
        | none => rw [hvol] at h; cases h
        | some vol =>
            rw [hvol, Option.map_some'] at h
            refine ⟨[Command.StartNote
              (s.2.time + calc_time d (th.get_tempo (s.1 + d)) tpqn) 0 key [vol]],
              ?_, by simp [Command.channel]⟩
            rw [← Option.some.injEq] at h
            simp only [Option.some.injEq] at h
            rw [← h]
            rfl
      · rw [if_neg hv] at h
        simp only [Option.some.injEq] at h
        refine ⟨[Command.StopNote
          (s.2.time + calc_time d (th.get_tempo (s.1 + d)) tpqn) 0 key],
          ?_, by simp [Command.channel]⟩
        rw [← h]
        rfl
  | NoteOff key velocity =>
      simp only [seqStep, Option.some.injEq] at h
      refine ⟨[Command.StopNote
        (s.2.time + calc_time d (th.get_tempo (s.1 + d)) tpqn) 0 key],
        ?_, by simp [Command.channel]⟩
      rw [← h]
      rfl
  | Other =>
      simp only [seqStep, Option.some.injEq] at h
      refine ⟨[], ?_, by simp⟩
      rw [← h]
      simp [SequenceHelper.time_forward]

/-- The channel-0 invariant is preserved by the fold over a track's events. -/
theorem seqFold_channel (tpqn : Nat) (th : TempoHelper) (events : List TrackEvent) :
    ∀ s s2, events.foldlM (seqStep tpqn th) s = some s2 →
      (∀ c ∈ s.2.sequence, c.channel = 0) → ∀ c ∈ s2.2.sequence, c.channel = 0 := by
  induction events with
  | nil =>
      intro s s2 h hc
      rw [show (([] : List TrackEvent).foldlM (seqStep tpqn th) s) = some s from rfl] at h
      cases h
      exact hc
  | cons te es ih =>
      intro s s2 h hc
      rw [List.foldlM_cons] at h
      cases hstep : seqStep tpqn th s te with
      | none => rw [hstep] at h; cases h
      | some s1 =>
          rw [hstep] at h
          have h1 : es.foldlM (seqStep tpqn th) s1 = some s2 := h
          obtain ⟨cs, hseq, hcs⟩ := seqStep_append tpqn th s te s1 hstep
          refine ih s1 s2 h1 ?_
          intro c hcmem
          rw [hseq] at hcmem
          rcases List.mem_append.mp hcmem with hm | hm
          · exact hc c hm
          · exact hcs c hm

/-- The channel-0 invariant is preserved by the fold over tracks. -/
theorem sequencingFold_channel (tpqn : Nat) (th : TempoHelper) (tracks : List Track) :
    ∀ sb sb2, tracks.foldlM (processTrack tpqn th) sb = some sb2 →
      (∀ c ∈ sb.sequence, c.channel = 0) → ∀ c ∈ sb2.sequence, c.channel = 0 := by
  induction tracks with
  | nil =>
      intro sb sb2 h hc
      rw [show (([] : List Track).foldlM (processTrack tpqn th) sb) = some sb from rfl] at h
      cases h
      exact hc
  | cons tr trs ih =>
      intro sb sb2 h hc
      rw [List.foldlM_cons] at h
      cases htr : processTrack tpqn th sb tr with
      | none => rw [htr] at h; cases h
      | some sb1 =>
          rw [htr] at h
          have h1 : trs.foldlM (processTrack tpqn th) sb1 = some sb2 := h
          refine ih sb1 sb2 h1 ?_
          unfold processTrack at htr
          cases hfold : tr.track_events.foldlM (seqStep tpqn th) (0, sb.reset) with
          | none => rw [hfold] at htr; cases htr
          | some s2 =>
              rw [hfold, Option.map_some'] at htr
              have hsb1 : sb1 = s2.2 := by
                injection htr with htr2
                exact htr2.symm
              rw [hsb1]
              exact seqFold_channel tpqn th tr.track_events (0, sb.reset) s2 hfold hc

/-- Claim C9: every command the pipeline emits targets channel 0, and the
synthesizer's instrument map holds exactly one instrument, keyed by
channel 0, whatever generator the FUNCTION argument selects. -/
theorem claim_C9 (smf : SMF) (cmds : List Command)
    (h : runPipeline smf = some cmds) :
    (∀ c ∈ cmds, c.channel = 0) ∧
    (∀ f : Option String, (buildInstruments f).map Prod.fst = [0]) := by
  refine ⟨?_, fun f => rfl⟩
  unfold runPipeline at h
  cases hdiv : smf.time_division with
  | SMPTECompatible a b => rw [hdiv] at h; cases h
  | TicksPerQuarterNote tpqn =>
      rw [hdiv] at h
      have h2 : (sequencing tpqn (discoverAll smf.tracks) smf.tracks).map
          (fun s => s.sequence) = some cmds := h
      cases hseq : sequencing tpqn (discoverAll smf.tracks) smf.tracks with
      | none => rw [hseq] at h2; cases h2
      | some sb =>
          rw [hseq, Option.map_some'] at h2
          have hc : cmds = sb.sequence := by
            injection h2 with h3
            exact h3.symm
          rw [hc]
          exact sequencingFold_channel tpqn (discoverAll smf.tracks) smf.tracks
            SequenceHelper.new sb hseq (by intro c hm; cases hm)

/-- Witness for C9 at a concrete one-note file. -/
theorem claim_C9_witness :
    (∀ c ∈ (SequenceHelper.new.time_forward
        (calc_time 0 (TempoHelper.get_tempo TempoHelper.new 0) 480)).sequence,
      c.channel = 0) ∧
    (∀ f : Option String, (buildInstruments f).map Prod.fst = [0]) :=
  claim_C9 ⟨TimeScale.TicksPerQuarterNote 480, [Track.mk [TrackEvent.mk 0 Event.Other]]⟩
    (SequenceHelper.new.time_forward
        (calc_time 0 (TempoHelper.get_tempo TempoHelper.new 0) 480)).sequence rfl
